import Mathlib

/-!
Verification of the magic-enum library (src/magic_enum.py) against its
specification.  The Python source is shallowly embedded: each class and
method below is translated into a Lean definition, with Python dict
semantics (insertion order preserved, assignment to an existing key keeps
its position) made explicit over association lists, and Python object
identity made explicit through an `id` field allocated by the builder.
-/

/-- Model of the Python values that can appear as enum-constant values in a
declaration block: the singleton `None`, integers, strings, and tuples.
`PyVal.none` plays the role of the `None` object, so the source test
`value is None` becomes a match on this constructor. -/
inductive PyVal where
  | none
  | int (n : Int)
  | str (s : String)
  | tuple (xs : List PyVal)

/-- Source `is_special(name)`: a name is special if it starts with an
underscore.  The underlying `startswith` test is expressed on the
character list: the first character, when there is one, is an
underscore. -/
def is_special (name : String) : Bool :=
  match name.data with
  | [] => false
  | c :: _ => c == '_'

/-- Source namedtuple `NameValue = namedtuple("NameValue", "name value
implicit_value")`. -/
structure NameValue where
  name : String
  value : PyVal
  implicit_value : Nat

/-- An entry of the raw class dictionary: special keys store the assigned
value unchanged, non-special keys always store a `NameValue` record
(both branches of `EnumDefaultNamespace.__setitem__`, and the fallback of
`__getitem__`). -/
inductive NsEntry where
  | raw (v : PyVal)
  | nv (n : NameValue)

/-- Python dict assignment `d[k] = v` on an association list: if the key is
already present its value is replaced in place (Python dicts keep the
original insertion position of an overwritten key), otherwise the pair is
appended at the end. -/
def dictSet {β : Type} (d : List (String × β)) (k : String) (v : β) :
    List (String × β) :=
  if d.any (fun p => p.1 == k) then
    d.map (fun p => if p.1 == k then (k, v) else p)
  else
    d ++ [(k, v)]

/-- Python dict lookup `d.get(k)` on an association list. -/
def dictFind {β : Type} (d : List (String × β)) (k : String) : Option β :=
  (d.find? (fun p => p.1 == k)).map (fun p => p.2)

/-- State of an `EnumDefaultNamespace` instance: the inner `namespace`
dict together with the `itertools.count()` generator, modelled as the next
natural number it will yield. -/
structure NsState where
  names : List (String × NsEntry)
  counter : Nat

/-- Source `EnumDefaultNamespace.__setitem__`: special keys are stored
unchanged; otherwise a value that is a one-element tuple is unwrapped to
its sole element, and the key is bound to a `NameValue` carrying the next
element of the counter generator. -/
def nsSetItem (st : NsState) (key : String) (value : PyVal) : NsState :=
  if is_special key then
    { st with names := dictSet st.names key (NsEntry.raw value) }
  else
    let value :=
      match value with
      | PyVal.tuple [v] => v
      | v => v
    { names := dictSet st.names key (NsEntry.nv ⟨key, value, st.counter⟩),
      counter := st.counter + 1 }

/-- The enclosing stack frame inspected by
`EnumDefaultNamespace.__getitem__` (two frames up from the lookup: the
scope in which the enum class statement appears), with its local and
global bindings. -/
structure Frame where
  f_locals : List (String × PyVal)
  f_globals : List (String × PyVal)

/-- Result of a namespace lookup: either a pre-existing value found in the
enclosing frame, or the freshly declared `NameValue` of a new implicit
enum constant. -/
inductive GetResult where
  | external (v : PyVal)
  | member (n : NameValue)

/-- Source `EnumDefaultNamespace.__getitem__`: if the key is bound in the
enclosing frame (locals first, then globals) return that binding and leave
the namespace untouched; otherwise declare a new enum constant with value
`None` and the next counter value, store it and return it. -/
def nsGetItem (st : NsState) (frame : Frame) (key : String) :
    GetResult × NsState :=
  match dictFind frame.f_locals key with
  | some v => (GetResult.external v, st)
  | Option.none =>
    match dictFind frame.f_globals key with
    | some v => (GetResult.external v, st)
    | Option.none =>
      let name_value : NameValue := ⟨key, PyVal.none, st.counter⟩
      (GetResult.member name_value,
       { names := dictSet st.names key (NsEntry.nv name_value),
         counter := st.counter + 1 })

/-- A statement of an enum declaration block, as the namespace sees it:
an assignment `name = value` triggers `__setitem__`, and a bare mention of
a name (as in `red, orange, yellow`) triggers `__getitem__` with the
result discarded. -/
inductive Stmt where
  | assign (name : String) (value : PyVal)
  | bare (name : String)

/-- Execute one declaration-block statement against the namespace. -/
def runStmt (frame : Frame) (st : NsState) : Stmt → NsState
  | Stmt.assign n v => nsSetItem st n v
  | Stmt.bare n => (nsGetItem st frame n).2

/-- Execute a whole declaration block against a fresh namespace, as
`MetaEnum.__prepare__` provides one: empty dict, counter starting at 0. -/
def runBlock (frame : Frame) (stmts : List Stmt) : NsState :=
  stmts.foldl (runStmt frame) ⟨[], 0⟩

/-- Source class `EnumConstant`.  The `id` field makes Python object
identity explicit: the builder allocates a fresh id for every constant it
constructs, so `id(self) == id(other)` becomes equality of this field. -/
structure EnumConstant where
  name : String
  enum_name : String
  value : PyVal
  implicit_value : Nat
  id : Nat

/-- Source `self.implicit = value is None` in `EnumConstant.__init__`. -/
def EnumConstant.implicit (c : EnumConstant) : Bool :=
  match c.value with
  | PyVal.none => true
  | _ => false

/-- Source `EnumConstant.__eq__`: `id(self) == id(other)` — identity
comparison. -/
def constEq (a b : EnumConstant) : Bool :=
  a.id == b.id

/-- Whether a `PyVal` models a Python `int` (the `isinstance(self.value,
int)` test in `EnumConstant.__lt__`). -/
def isIntVal : PyVal → Bool
  | PyVal.int _ => true
  | _ => false

/-- Source `EnumConstant.__lt__`: if `self.value` is an int, compare the
values (`some` when the other value is also an int; `Option.none` models
the `TypeError` Python raises when comparing an int with a non-int);
otherwise compare the implicit ordering values. -/
def constLt (a b : EnumConstant) : Option Bool :=
  match a.value with
  | PyVal.int n =>
    match b.value with
    | PyVal.int m => some (decide (n < m))
    | _ => Option.none
  | _ => some (decide (a.implicit_value < b.implicit_value))

/-- Boolean form of `constLt` used inside sorting; the error case (mixed
int / non-int comparison, where Python raises) is collapsed to `false` and
never arises for the homogeneous enums the theorems speak about. -/
def constLtB (a b : EnumConstant) : Bool :=
  (constLt a b).getD false

/-- The non-strict comparison a Python sort performs with only `__lt__`
available: `a` may stay before `b` exactly when `not (b < a)`. -/
def constLe (a b : EnumConstant) : Bool :=
  !(constLtB b a)

/-- Python `repr` for the modelled values (used by `EnumConstant.__str__`
via `repr(self.value)`). -/
def pyRepr : PyVal → String
  | PyVal.none => "None"
  | PyVal.int n => toString n
  | PyVal.str s => "\x27" ++ s ++ "\x27"
  | PyVal.tuple xs => "(tuple of " ++ toString xs.length ++ ")"

/-- Source `EnumConstant.__str__`: the display includes the value only if
the value was manually set (the constant is not implicit). -/
def constStr (c : EnumConstant) : String :=
  let display := c.enum_name ++ "." ++ c.name
  if !c.implicit then
    display ++ "(value=" ++ pyRepr c.value ++ ")"
  else
    display

/-- A built enum type: the type name, the underlying class `__dict__`
(the classdict handed to `type.__new__`, still holding the raw
`NameValue` records), and the `_members` registry filled by
`MetaEnum.__new__`. -/
structure EnumType where
  type_name : String
  classdict : List (String × NsEntry)
  members : List (String × EnumConstant)

/-- The non-special `NameValue` records of a classdict, in insertion
order: `filterfalse(is_special, classdict.keys())` followed by the
`classdict[const_name]` unpacking in `MetaEnum.__new__`. -/
def nonSpecialNVs (classdict : List (String × NsEntry)) : List NameValue :=
  classdict.filterMap (fun p =>
    if is_special p.1 then Option.none
    else
      match p.2 with
      | NsEntry.nv n => some n
      | NsEntry.raw _ => Option.none)

/-- Construct one `EnumConstant` per record, in order, allocating
consecutive fresh object ids starting at `firstId` (each `EnumClass(...)`
call in `MetaEnum.__new__` creates a fresh Python object). -/
def mkConstants (ename : String) (firstId : Nat) :
    List NameValue → List EnumConstant
  | [] => []
  | n :: rest =>
    ⟨n.name, ename, n.value, n.implicit_value, firstId⟩ ::
      mkConstants ename (firstId + 1) rest

/-- Source `MetaEnum.__new__`: build the enum type from the finished
namespace dict, registering one freshly allocated constant per non-special
name in `_members`.  Returns the built type together with the next unused
object id, so that successive class definitions in one process allocate
disjoint id ranges. -/
def buildEnum (name : String) (classdict : List (String × NsEntry))
    (firstId : Nat) : EnumType × Nat :=
  let nvs := nonSpecialNVs classdict
  let consts := mkConstants name firstId nvs
  (⟨name, classdict, consts.map (fun c => (c.name, c))⟩,
   firstId + nvs.length)

/-- Declare an enum: run the declaration block and build the type, exactly
as executing a `class E(Enum):` statement does. -/
def declareEnum (name : String) (frame : Frame) (stmts : List Stmt)
    (firstId : Nat) : EnumType × Nat :=
  buildEnum name (runBlock frame stmts).names firstId

/-- Stable insertion of `a` into a sorted list: `a` is placed before the
first element it may precede.  Together with `insort` below this models
Python sorting (a stable sort driven by `__lt__`; on a total preorder the
stable sort result is unique, so any stable sort is a faithful model). -/
def orderedIns {α : Type} (le : α → α → Bool) (a : α) : List α → List α
  | [] => [a]
  | b :: l => if le a b then a :: b :: l else b :: orderedIns le a l

/-- Stable sort by repeated insertion (model of Python `sorted`). -/
def insort {α : Type} (le : α → α → Bool) : List α → List α
  | [] => []
  | a :: l => orderedIns le a (insort le l)

/-- The registered constants of an enum, in registration order
(`self._members.values()`). -/
def memberConsts (E : EnumType) : List EnumConstant :=
  E.members.map (fun p => p.2)

/-- Source `MetaEnum.__iter__`: `iter(sorted(self._members.values()))`,
sorting with the `__lt__` of `EnumConstant`. -/
def enumIter (E : EnumType) : List EnumConstant :=
  insort constLe (memberConsts E)

/-- Result of an attribute lookup on an enum type.  `special` stands for
delegation to `super().__getattribute__` (the default type machinery);
`memberNotFound` is the `AttributeError` raised for a missing constant,
carrying the enum name and the requested attribute. -/
inductive LookupResult where
  | found (c : EnumConstant)
  | special
  | memberNotFound (enum_name : String) (attr : String)

/-- The diagnostic message attached to a missing-member failure. -/
def memberNotFoundMsg (enum_name attr : String) : String :=
  "Enum constant not found: " ++ enum_name ++ "." ++ attr

/-- Source `MetaEnum.__getattribute__`: special attributes are delegated
to the default machinery; otherwise the `_members` registry is consulted
and a missing key becomes a `memberNotFound` failure naming the enum and
the attribute. -/
def enumGetattr (E : EnumType) (attr : String) : LookupResult :=
  if is_special attr then
    LookupResult.special
  else
    match dictFind E.members attr with
    | some c => LookupResult.found c
    | Option.none => LookupResult.memberNotFound E.type_name attr

/-- Source `MetaEnum.__getitem__`: subscripting is `getattr(self, value)`,
the very same lookup. -/
def enumGetitem (E : EnumType) (value : String) : LookupResult :=
  enumGetattr E value

/-- Result of an attribute assignment on an enum type. -/
inductive SetAttrResult where
  | ok (E : EnumType)
  | lockedError

/-- Source `MetaEnum.__setattr__`: special keys are set through the
default machinery (on the class dict); any other assignment raises
`AttributeError("Can..t set attributes on an Enum!")`, modelled as
`lockedError`, and changes nothing. -/
def enumSetattr (E : EnumType) (key : String) (value : NsEntry) :
    SetAttrResult :=
  if is_special key then
    SetAttrResult.ok { E with classdict := dictSet E.classdict key value }
  else
    SetAttrResult.lockedError

/-- Result of an attribute deletion on an enum type. -/
inductive DelAttrResult where
  | ok (E : EnumType)
  | attrError
  | lockedError

/-- Deletion of an attribute.  `MetaEnum` defines no `__delattr__`, so
`del E.name` falls through to the default `type.__delattr__`: it removes
the key from the class `__dict__` when present (succeeding without any
lock check) and raises a plain `AttributeError` when absent.  The
`_members` registry is never consulted and never modified. -/
def enumDelattr (E : EnumType) (key : String) : DelAttrResult :=
  if E.classdict.any (fun p => p.1 == key) then
    DelAttrResult.ok
      { E with classdict := E.classdict.filter (fun p => p.1 != key) }
  else
    DelAttrResult.attrError

/-- The scan of the `for this, next_ in zip(this_values, next_values)`
loop of `EnumConstant.__next__`, over one period of the cycled member
sequence: index of the first element identical to `self`. -/
def scanFind (self : EnumConstant) : List EnumConstant → Option Nat
  | [] => Option.none
  | c :: rest =>
    if constEq c self then some 0
    else (scanFind self rest).map (fun i => i + 1)

/-- Outcome of `next(c)`.  `found` is the normal return; `attrError` is
the `AttributeError("Something went badly wrong!")` of the for-else
branch, reached only when the zipped iterators are exhausted; `diverges`
records that the loop never terminates (the cycled iterators are infinite
and no pair ever matches). -/
inductive NextResult where
  | found (c : EnumConstant)
  | attrError
  | diverges

/-- Source `EnumConstant.__next__`.  The loop walks pairs
`(None, s(0)), (s(0), s(1)), (s(1), s(2)), ...` over the infinitely
cycled sorted member list `s`.  The pair stream is periodic, so the first
match (by identity) happens within one period if it happens at all: if
`self` sits at index `k`, the pair `(s(k), s(k+1 mod n))` breaks the loop
and `s(k+1 mod n)` is returned.  With an empty member list the zip is
exhausted at once and the for-else raise fires; with a non-empty list and
no match the zip never ends and the loop runs forever (`diverges`). -/
def nextConst (E : EnumType) (self : EnumConstant) : NextResult :=
  let s := enumIter E
  if s.isEmpty then NextResult.attrError
  else
    match scanFind self s with
    | some k => NextResult.found (s.getD ((k + 1) % s.length) self)
    | Option.none => NextResult.diverges

/-- An empty enclosing frame: none of the member names are bound outside
the declaration (the situation of the example enums in src/testing.py). -/
def emptyFrame : Frame :=
  ⟨[], []⟩

/-- Declaration block of the `Colour` example: seven bare member names. -/
def colourStmts : List Stmt :=
  [Stmt.bare "red", Stmt.bare "orange", Stmt.bare "yellow",
   Stmt.bare "green", Stmt.bare "blue", Stmt.bare "indigo",
   Stmt.bare "violet"]

/-- The built `Colour` enum together with the next free object id. -/
def colourBuild : EnumType × Nat :=
  declareEnum "Colour" emptyFrame colourStmts 0

/-- The `Colour` example enum. -/
def colour : EnumType :=
  colourBuild.1

/-- The built `TrafficLight` enum, allocated after `Colour` so the two
types occupy disjoint object-id ranges. -/
def trafficBuild : EnumType × Nat :=
  declareEnum "TrafficLight" emptyFrame
    [Stmt.bare "red", Stmt.bare "amber", Stmt.bare "green"] colourBuild.2

/-- The `TrafficLight` example enum. -/
def trafficLight : EnumType :=
  trafficBuild.1

/-- Declaration block of the `CarBrand` example: explicit integer values
out of declaration order. -/
def carBrandStmts : List Stmt :=
  [Stmt.assign "Ford" (PyVal.int 1), Stmt.assign "Toyota" (PyVal.int 3),
   Stmt.assign "Mitsubishi" (PyVal.int 2)]

/-- The `CarBrand` example enum. -/
def carBrand : EnumType :=
  (declareEnum "CarBrand" emptyFrame carBrandStmts trafficBuild.2).1

/-- Non-strict comparison of two int values, used to state the ordering
rule (order by explicit numeric value). -/
def pyIntLe : PyVal → PyVal → Bool
  | PyVal.int n, PyVal.int m => decide (n ≤ m)
  | _, _ => false

/-- The integer behind an int value, defaulting to 0 (the default is never
reached in the all-int situations where this helper is used). -/
def intOfD : PyVal → Int
  | PyVal.int n => n
  | _ => 0

/-- Total comparison by explicit integer value, used as the well-behaved
relation the sort agrees with on all-int enums. -/
def leVal (a b : EnumConstant) : Bool :=
  decide (intOfD a.value ≤ intOfD b.value)

/-- Total comparison by implicit ordinal, used as the well-behaved
relation the sort agrees with on enums without int values. -/
def leOrd (a b : EnumConstant) : Bool :=
  decide (a.implicit_value ≤ b.implicit_value)

theorem perm_orderedIns {α : Type} (le : α → α → Bool) (a : α)
    (l : List α) : (orderedIns le a l).Perm (a :: l) := by
  induction l with
  | nil => exact List.Perm.refl _
  | cons b t ih =>
    cases hab : le a b with
    | true => simp [orderedIns, hab]
    | false =>
      simp only [orderedIns, hab, Bool.false_eq_true, if_false]
      exact (ih.cons b).trans (List.Perm.swap a b t)

theorem perm_insort {α : Type} (le : α → α → Bool) (l : List α) :
    (insort le l).Perm l := by
  induction l with
  | nil => exact List.Perm.refl _
  | cons a t ih =>
    exact (perm_orderedIns le a (insort le t)).trans (ih.cons a)

theorem pairwise_orderedIns {α : Type} (le : α → α → Bool)
    (htot : ∀ x y, (le x y || le y x) = true)
    (htrans : ∀ x y z, le x y = true → le y z = true → le x z = true)
    (a : α) (l : List α) (hl : l.Pairwise (fun x y => le x y = true)) :
    (orderedIns le a l).Pairwise (fun x y => le x y = true) := by
  induction l with
  | nil => simp [orderedIns]
  | cons b t ih =>
    rcases List.pairwise_cons.mp hl with ⟨hb, ht⟩
    cases hab : le a b with
    | true =>
      simp only [orderedIns, hab, if_true]
      refine List.pairwise_cons.mpr ⟨?_, hl⟩
      intro y hy
      rcases List.mem_cons.mp hy with hy | hy
      · exact hy ▸ hab
      · exact htrans a b y hab (hb y hy)
    | false =>
      have hba : le b a = true := by
        have h := htot a b
        rw [hab] at h
        simpa using h
      simp only [orderedIns, hab, Bool.false_eq_true, if_false]
      refine List.pairwise_cons.mpr ⟨?_, ih ht⟩
      intro y hy
      rcases List.mem_cons.mp ((perm_orderedIns le a t).mem_iff.mp hy) with hy | hy
      · exact hy ▸ hba
      · exact hb y hy

theorem pairwise_insort {α : Type} (le : α → α → Bool)
    (htot : ∀ x y, (le x y || le y x) = true)
    (htrans : ∀ x y z, le x y = true → le y z = true → le x z = true)
    (l : List α) :
    (insort le l).Pairwise (fun x y => le x y = true) := by
  induction l with
  | nil => simp [insort]
  | cons a t ih => exact pairwise_orderedIns le htot htrans a _ ih

theorem mem_insort {α : Type} (le : α → α → Bool) {x : α} {l : List α} :
    x ∈ insort le l ↔ x ∈ l :=
  (perm_insort le l).mem_iff

theorem orderedIns_congr {α : Type} (le le' : α → α → Bool) (a : α)
    (l : List α) (h : ∀ y ∈ l, le a y = le' a y) :
    orderedIns le a l = orderedIns le' a l := by
  induction l with
  | nil => rfl
  | cons b t ih =>
    have hb : le a b = le' a b := h b (List.mem_cons_self b t)
    have ht : orderedIns le a t = orderedIns le' a t :=
      ih (fun y hy => h y (List.mem_cons_of_mem b hy))
    simp only [orderedIns, ← hb]
    cases hab : le a b with
    | true => simp
    | false => simp [ht]

theorem insort_congr {α : Type} (le le' : α → α → Bool) (l : List α)
    (h : ∀ x ∈ l, ∀ y ∈ l, le x y = le' x y) :
    insort le l = insort le' l := by
  induction l with
  | nil => rfl
  | cons a t ih =>
    have ht : insort le t = insort le' t :=
      ih (fun x hx y hy =>
        h x (List.mem_cons_of_mem a hx) y (List.mem_cons_of_mem a hy))
    simp only [insort, ht]
    apply orderedIns_congr
    intro y hy
    have hyt : y ∈ t := (perm_insort le' t).mem_iff.mp hy
    exact h a (List.mem_cons_self a t) y (List.mem_cons_of_mem a hyt)

theorem find?_append_of_not_found {β : Type} (d : List (String × β))
    (k : String) (v : β) (hd : d.any (fun p => p.1 == k) = false) :
    List.find? (fun p => p.1 == k) (d ++ [(k, v)]) = some (k, v) := by
  induction d with
  | nil => simp [List.find?]
  | cons p t ih =>
    simp only [List.any_cons, Bool.or_eq_false_iff] at hd
    rw [List.cons_append, List.find?_cons_of_neg _ (by simp [hd.1]), ih hd.2]

theorem find?_map_set_found {β : Type} (d : List (String × β)) (k : String)
    (v : β) (hd : d.any (fun p => p.1 == k) = true) :
    List.find? (fun p => p.1 == k)
      (d.map (fun p => if p.1 == k then (k, v) else p)) = some (k, v) := by
  induction d with
  | nil => simp at hd
  | cons p t ih =>
    simp only [List.any_cons, Bool.or_eq_true] at hd
    cases hp : (p.1 == k) with
    | true =>
      simp only [List.map_cons, hp, if_true]
      rw [List.find?_cons_of_pos _ (by simp)]
    | false =>
      have ht : t.any (fun p => p.1 == k) = true := by
        rcases hd with hd | hd
        · rw [hp] at hd; exact absurd hd (by simp)
        · exact hd
      simp only [List.map_cons, hp, Bool.false_eq_true, if_false]
      rw [List.find?_cons_of_neg _ (by simp [hp]), ih ht]

theorem dictFind_dictSet {β : Type} (d : List (String × β)) (k : String)
    (v : β) : dictFind (dictSet d k v) k = some v := by
  unfold dictFind dictSet
  cases hd : d.any (fun p => p.1 == k) with
  | true =>
    simp only [hd, if_true]
    rw [find?_map_set_found d k v hd]
    rfl
  | false =>
    simp only [hd, Bool.false_eq_true, if_false]
    rw [find?_append_of_not_found d k v hd]
    rfl

theorem mkConstants_map_id (e : String) (i : Nat) (l : List NameValue) :
    (mkConstants e i l).map EnumConstant.id = List.range' i l.length := by
  induction l generalizing i with
  | nil => rfl
  | cons n t ih => simp [mkConstants, List.range'_succ, ih]

theorem memberConsts_buildEnum (name : String)
    (cd : List (String × NsEntry)) (i : Nat) :
    memberConsts (buildEnum name cd i).1 =
      mkConstants name i (nonSpecialNVs cd) := by
  simp only [memberConsts, buildEnum, List.map_map]
  rw [show ((fun p : String × EnumConstant => p.2) ∘
        fun c : EnumConstant => (c.name, c)) =
      (id : EnumConstant → EnumConstant) from rfl]
  exact List.map_id _

theorem buildEnum_member_id_range (name : String)
    (cd : List (String × NsEntry)) (i : Nat) {c : EnumConstant}
    (hc : c ∈ memberConsts (buildEnum name cd i).1) :
    i ≤ c.id ∧ c.id < i + (nonSpecialNVs cd).length := by
  rw [memberConsts_buildEnum] at hc
  have : c.id ∈ (mkConstants name i (nonSpecialNVs cd)).map EnumConstant.id :=
    List.mem_map_of_mem EnumConstant.id hc
  rw [mkConstants_map_id] at this
  rcases List.mem_range'.mp this with ⟨j, hj, hcj⟩
  omega

theorem enumIter_id_nodup (name : String) (cd : List (String × NsEntry))
    (i : Nat) :
    ((enumIter (buildEnum name cd i).1).map EnumConstant.id).Nodup := by
  have hmem : ((memberConsts (buildEnum name cd i).1).map
      EnumConstant.id).Nodup := by
    rw [memberConsts_buildEnum, mkConstants_map_id]
    exact List.nodup_range' i _
  exact ((perm_insort constLe _).map EnumConstant.id).symm.nodup hmem

theorem enumGetattr_found_mem {E : EnumType} {m : String}
    {c : EnumConstant} (h : enumGetattr E m = LookupResult.found c) :
    c ∈ memberConsts E := by
  unfold enumGetattr at h
  by_cases hm : is_special m = true
  · simp [hm] at h
  · rw [if_neg hm] at h
    cases hf : dictFind E.members m with
    | none => rw [hf] at h; exact absurd h (by simp)
    | some c0 =>
      rw [hf] at h
      have hc0 : c0 = c := by
        injection h
      unfold dictFind at hf
      cases hp : List.find? (fun p => p.1 == m) E.members with
      | none => rw [hp] at hf; simp at hf
      | some p =>
        rw [hp] at hf
        have hpm : p ∈ E.members := List.mem_of_find?_eq_some hp
        have hp2 : p.2 = c0 := by
          simpa using hf
        rw [← hc0, ← hp2]
        exact List.mem_map_of_mem (fun p => p.2) hpm

theorem scanFind_get {l : List EnumConstant}
    (hnd : (l.map EnumConstant.id).Nodup) (i : Fin l.length) :
    scanFind (l.get i) l = some i.val := by
  induction l with
  | nil => exact absurd i.isLt (by simp)
  | cons a t ih =>
    rcases i with ⟨iv, hil⟩
    cases iv with
    | zero => simp [scanFind, constEq]
    | succ j =>
      have hj : j < t.length := Nat.lt_of_succ_lt_succ hil
      have hnd0 := List.nodup_cons.mp (by simpa using hnd :
        (a.id :: t.map EnumConstant.id).Nodup)
      have hgt : (a :: t).get ⟨j + 1, hil⟩ = t.get ⟨j, hj⟩ := rfl
      have hane : constEq a (t.get ⟨j, hj⟩) = false := by
        have hmem : (t.get ⟨j, hj⟩).id ∈ t.map EnumConstant.id :=
          List.mem_map_of_mem EnumConstant.id (t.get_mem j hj)
        have hne : a.id ≠ (t.get ⟨j, hj⟩).id := fun hEq => hnd0.1 (hEq ▸ hmem)
        simp only [constEq, beq_eq_false_iff_ne, ne_eq]
        exact hne
      rw [hgt]
      unfold scanFind
      rw [hane]
      simp only [Bool.false_eq_true, if_false]
      rw [ih hnd0.2 ⟨j, hj⟩]
      rfl

theorem scanFind_none_not_mem {self : EnumConstant}
    {l : List EnumConstant} (h : scanFind self l = Option.none) :
    ∀ c ∈ l, constEq c self = false := by
  induction l with
  | nil => intro c hc; simp at hc
  | cons a t ih =>
    intro c hc
    unfold scanFind at h
    cases hca : constEq a self with
    | true => rw [hca] at h; simp at h
    | false =>
      rw [hca] at h
      simp only [Bool.false_eq_true, if_false] at h
      rcases List.mem_cons.mp hc with hc | hc
      · exact hc ▸ hca
      · exact ih (by simpa using h) c hc

theorem isIntVal_exists {v : PyVal} (h : isIntVal v = true) :
    ∃ n, v = PyVal.int n := by
  cases v <;> simp [isIntVal] at h ⊢

theorem constLt_int_int {a b : EnumConstant} {n m : Int}
    (ha : a.value = PyVal.int n) (hb : b.value = PyVal.int m) :
    constLt a b = some (decide (n < m)) := by
  simp [constLt, ha, hb]

theorem constLt_not_int {a : EnumConstant} (b : EnumConstant)
    (ha : isIntVal a.value = false) :
    constLt a b = some (decide (a.implicit_value < b.implicit_value)) := by
  cases hv : a.value with
  | int n => rw [hv] at ha; simp [isIntVal] at ha
  | none => simp [constLt, hv]
  | str s => simp [constLt, hv]
  | tuple xs => simp [constLt, hv]

theorem not_decide_lt_int (n m : Int) :
    (!decide (n < m)) = decide (m ≤ n) := by
  by_cases h : n < m
  · simp [h, show ¬m ≤ n from by omega]
  · simp [h, show m ≤ n from by omega]

theorem not_decide_lt_nat (n m : Nat) :
    (!decide (n < m)) = decide (m ≤ n) := by
  by_cases h : n < m
  · simp [h, show ¬m ≤ n from by omega]
  · simp [h, show m ≤ n from by omega]

/-- C1: iteration over a built enum type yields exactly the declared
members, each exactly once (a permutation of the member registry); when
every member carries an integer explicit value the sequence is ordered by
those values, and when no member carries an integer value it is ordered by
the declaration-order ordinal; in particular the CarBrand declaration
(Ford = 1, Toyota = 3, Mitsubishi = 2) iterates as
[Ford, Mitsubishi, Toyota].  Mixed int and non-int declarations are
outside the claim: there the comparison of the source raises TypeError. -/
theorem iteration_yields_ordered_members (E : EnumType) :
    (enumIter E).Perm (memberConsts E) ∧
    ((∀ c ∈ memberConsts E, isIntVal c.value = true) →
      (enumIter E).Pairwise (fun a b => pyIntLe a.value b.value = true)) ∧
    ((∀ c ∈ memberConsts E, isIntVal c.value = false) →
      (enumIter E).Pairwise
        (fun a b => a.implicit_value ≤ b.implicit_value)) ∧
    (enumIter carBrand).map EnumConstant.name =
      ["Ford", "Mitsubishi", "Toyota"] := by
  refine ⟨perm_insort constLe _, ?_, ?_, by decide⟩
  · intro hints
    have hagree : ∀ x ∈ memberConsts E, ∀ y ∈ memberConsts E,
        constLe x y = leVal x y := by
      intro x hx y hy
      obtain ⟨nx, hnx⟩ := isIntVal_exists (hints x hx)
      obtain ⟨ny, hny⟩ := isIntVal_exists (hints y hy)
      rw [constLe, constLtB, constLt_int_int hny hnx]
      simp only [Option.getD_some, leVal, intOfD, hnx, hny]
      exact not_decide_lt_int ny nx
    have hcong : enumIter E = insort leVal (memberConsts E) :=
      insort_congr constLe leVal _ hagree
    rw [hcong]
    have htot : ∀ x y : EnumConstant, (leVal x y || leVal y x) = true := by
      intro x y
      rw [leVal, leVal, ← Bool.decide_or]
      exact decide_eq_true (Int.le_total _ _)
    have htrans : ∀ x y z : EnumConstant, leVal x y = true →
        leVal y z = true → leVal x z = true := by
      intro x y z hxy hyz
      simp only [leVal, decide_eq_true_eq] at hxy hyz ⊢
      omega
    have hpw := pairwise_insort leVal htot htrans (memberConsts E)
    refine List.Pairwise.imp_of_mem ?_ hpw
    intro a b ha hb hab
    obtain ⟨na, hna⟩ := isIntVal_exists (hints a ((mem_insort leVal).mp ha))
    obtain ⟨nb, hnb⟩ := isIntVal_exists (hints b ((mem_insort leVal).mp hb))
    simp only [leVal, intOfD, hna, hnb, decide_eq_true_eq] at hab
    simp only [pyIntLe, hna, hnb, decide_eq_true_eq]
    exact hab
  · intro hnoints
    have hagree : ∀ x ∈ memberConsts E, ∀ y ∈ memberConsts E,
        constLe x y = leOrd x y := by
      intro x hx y hy
      rw [constLe, constLtB, constLt_not_int x (hnoints y hy)]
      simp only [Option.getD_some, leOrd]
      exact not_decide_lt_nat _ _
    have hcong : enumIter E = insort leOrd (memberConsts E) :=
      insort_congr constLe leOrd _ hagree
    rw [hcong]
    have htot : ∀ x y : EnumConstant, (leOrd x y || leOrd y x) = true := by
      intro x y
      rw [leOrd, leOrd, ← Bool.decide_or]
      exact decide_eq_true (Nat.le_total _ _)
    have htrans : ∀ x y z : EnumConstant, leOrd x y = true →
        leOrd y z = true → leOrd x z = true := by
      intro x y z hxy hyz
      simp only [leOrd, decide_eq_true_eq] at hxy hyz ⊢
      omega
    have hpw := pairwise_insort leOrd htot htrans (memberConsts E)
    refine List.Pairwise.imp_of_mem ?_ hpw
    intro a b _ _ hab
    simpa [leOrd] using hab

/-- Witness for the C1 theorem at the CarBrand enum: every member carries
an integer explicit value and the iteration order respects those
values. -/
theorem iteration_yields_ordered_members_witness :
    (∀ c ∈ memberConsts carBrand, isIntVal c.value = true) ∧
    (enumIter carBrand).Pairwise (fun a b => pyIntLe a.value b.value = true) :=
  ⟨by decide, (iteration_yields_ordered_members carBrand).2.1 (by decide)⟩

/-- C6: for a non-empty enum whose registered constants have pairwise
distinct object ids (true of every built enum), next of the member at
position i of the iteration order is the member at position
(i+1) mod n — in particular, next of the last member is the first. -/
theorem next_is_cyclic_successor (E : EnumType)
    (hnd : ((enumIter E).map EnumConstant.id).Nodup)
    (i : Fin (enumIter E).length) :
    nextConst E ((enumIter E).get i) =
      NextResult.found ((enumIter E).get
        ⟨(i.val + 1) % (enumIter E).length, Nat.mod_lt _ i.pos⟩) := by
  unfold nextConst
  have hne : (enumIter E).isEmpty = false := by
    cases hs : enumIter E with
    | nil => rw [hs] at i; exact absurd i.isLt (by simp)
    | cons a t => rfl
  simp only [hne, Bool.false_eq_true, if_false]
  rw [scanFind_get hnd i]
  show NextResult.found ((enumIter E).getD ((i.val + 1) % (enumIter E).length)
    ((enumIter E).get i)) = _
  congr 1
  rw [List.getD_eq_getElem _ _ (Nat.mod_lt _ i.pos)]
  exact (List.get_eq_getElem (enumIter E)
    ⟨(i.val + 1) % (enumIter E).length, Nat.mod_lt _ i.pos⟩).symm

/-- Witness for the C6 theorem at the TrafficLight enum: the successor of
the last member (green) is the first (red) — the cyclic wrap. -/
theorem next_is_cyclic_successor_witness :
    ((enumIter trafficLight).map EnumConstant.id).Nodup ∧
    nextConst trafficLight ((enumIter trafficLight).get ⟨2, by decide⟩) =
      NextResult.found ((enumIter trafficLight).get ⟨0, by decide⟩) := by
  have hnd : ((enumIter trafficLight).map EnumConstant.id).Nodup := by decide
  have h := next_is_cyclic_successor trafficLight hnd ⟨2, by decide⟩
  exact ⟨hnd, h⟩

/-- C7 evaluation at the failing input: advancing a constant whose id is
absent from its non-empty type sequence makes the scan loop forever
(diverges), rather than reaching the defensive for-else raise; the raise
is reachable only when the member sequence is empty and the zipped
iterators are exhausted at once. -/
theorem next_missing_constant_diverges :
    nextConst trafficLight ⟨"rogue", "TrafficLight", PyVal.none, 0, 999⟩ =
      NextResult.diverges :=
  rfl

/-- C2: repeated member access on one enum returns the identical
registered constant, equal to itself under the identity-based equality;
across two enum types built one after the other in the same process
(hence with disjoint object-id ranges), a shared member name yields
constants that compare unequal. -/
theorem member_access_identity (name1 name2 m : String)
    (cd1 cd2 : List (String × NsEntry)) (i j k : Nat) (E1 E2 : EnumType)
    (hb1 : buildEnum name1 cd1 i = (E1, j))
    (hb2 : buildEnum name2 cd2 j = (E2, k))
    (c1 c1' c2 : EnumConstant)
    (h1 : enumGetattr E1 m = LookupResult.found c1)
    (h1' : enumGetattr E1 m = LookupResult.found c1')
    (h2 : enumGetattr E2 m = LookupResult.found c2) :
    c1 = c1' ∧ constEq c1 c1' = true ∧ constEq c1 c2 = false := by
  have heq : c1 = c1' := by
    rw [h1] at h1'
    injection h1'
  refine ⟨heq, by rw [heq, constEq]; simp, ?_⟩
  have hE1 : (buildEnum name1 cd1 i).1 = E1 := by rw [hb1]
  have hE2 : (buildEnum name2 cd2 j).1 = E2 := by rw [hb2]
  have hj1 : (buildEnum name1 cd1 i).2 = j := by rw [hb1]
  have hlen : i + (nonSpecialNVs cd1).length = j := by
    rw [← hj1]
    simp [buildEnum]
  have hm1 : c1 ∈ memberConsts (buildEnum name1 cd1 i).1 := by
    rw [hE1]
    exact enumGetattr_found_mem h1
  have hm2 : c2 ∈ memberConsts (buildEnum name2 cd2 j).1 := by
    rw [hE2]
    exact enumGetattr_found_mem h2
  have hr1 := buildEnum_member_id_range name1 cd1 i hm1
  have hr2 := buildEnum_member_id_range name2 cd2 j hm2
  simp only [constEq, beq_eq_false_iff_ne, ne_eq]
  omega

/-- Witness for the C2 theorem: Colour.red equals itself and differs from
TrafficLight.red, the two types having been built one after the other. -/
theorem member_access_identity_witness :
    constEq ⟨"red", "Colour", PyVal.none, 0, 0⟩
      ⟨"red", "Colour", PyVal.none, 0, 0⟩ = true ∧
    constEq ⟨"red", "Colour", PyVal.none, 0, 0⟩
      ⟨"red", "TrafficLight", PyVal.none, 0, 7⟩ = false := by
  have h := member_access_identity "Colour" "TrafficLight" "red"
    (runBlock emptyFrame colourStmts).names
    (runBlock emptyFrame
      [Stmt.bare "red", Stmt.bare "amber", Stmt.bare "green"]).names
    0 7 10 colour trafficLight rfl rfl
    ⟨"red", "Colour", PyVal.none, 0, 0⟩
    ⟨"red", "Colour", PyVal.none, 0, 0⟩
    ⟨"red", "TrafficLight", PyVal.none, 0, 7⟩ rfl rfl rfl
  exact ⟨h.2.1, h.2.2⟩

/-- C3 counterexample: assigning the same name twice in one declaration
block reassigns its ordinal — after `a = 1` the record carries ordinal 0,
but after a subsequent `a = 2` the very same name carries ordinal 1, so
the ordinal allocated at first mention is not kept. -/
theorem ordinal_reassigned_on_second_mention :
    (runBlock emptyFrame [Stmt.assign "a" (PyVal.int 1)]).names =
      [("a", NsEntry.nv ⟨"a", PyVal.int 1, 0⟩)] ∧
    (runBlock emptyFrame
      [Stmt.assign "a" (PyVal.int 1), Stmt.assign "a" (PyVal.int 2)]).names =
      [("a", NsEntry.nv ⟨"a", PyVal.int 2, 1⟩)] :=
  ⟨rfl, rfl⟩

/-- C3 amended: every assignment to a non-reserved name, and every bare
mention unresolved in the enclosing scope, stores the current counter
value as the name's ordinal and increments the counter — even when the
name already holds an ordinal, so a repeated mention reassigns a fresh
ordinal (the record keeps its original insertion position, per dict
semantics). -/
theorem each_mention_takes_fresh_ordinal (st : NsState) (key : String)
    (v : PyVal) (frame : Frame)
    (hk : is_special key = false)
    (hl : dictFind frame.f_locals key = Option.none)
    (hg : dictFind frame.f_globals key = Option.none) :
    ((nsSetItem st key v).counter = st.counter + 1 ∧
      ∃ w, dictFind (nsSetItem st key v).names key =
        some (NsEntry.nv ⟨key, w, st.counter⟩)) ∧
    ((nsGetItem st frame key).2.counter = st.counter + 1 ∧
      dictFind (nsGetItem st frame key).2.names key =
        some (NsEntry.nv ⟨key, PyVal.none, st.counter⟩)) := by
  refine ⟨⟨?_, ?_⟩, ?_, ?_⟩
  · simp [nsSetItem, hk]
  · refine ⟨match v with | PyVal.tuple [u] => u | u => u, ?_⟩
    simp only [nsSetItem, hk, Bool.false_eq_true, if_false]
    exact dictFind_dictSet _ _ _
  · simp [nsGetItem, hl, hg]
  · simp only [nsGetItem, hl, hg]
    exact dictFind_dictSet _ _ _

/-- Witness for the amended C3 theorem: a state in which the name already
carries ordinal 0 still hands out the fresh ordinal 1 on the next
assignment. -/
theorem each_mention_takes_fresh_ordinal_witness :
    (nsSetItem ⟨[("a", NsEntry.nv ⟨"a", PyVal.int 1, 0⟩)], 1⟩ "a"
      (PyVal.int 2)).counter = 2 ∧
    dictFind (nsGetItem ⟨[], 0⟩ emptyFrame "b").2.names "b" =
      some (NsEntry.nv ⟨"b", PyVal.none, 0⟩) := by
  have h1 := each_mention_takes_fresh_ordinal
    ⟨[("a", NsEntry.nv ⟨"a", PyVal.int 1, 0⟩)], 1⟩ "a" (PyVal.int 2)
    emptyFrame rfl rfl rfl
  have h2 := each_mention_takes_fresh_ordinal ⟨[], 0⟩ "b" PyVal.none
    emptyFrame rfl rfl rfl
  exact ⟨h1.1.1, h2.2.2⟩

/-- C4 counterexample: the reserved string `_members` is not a member of
the built Colour type, yet looking it up does not fail with the
member-not-found error — it is delegated to the default attribute
machinery (where it succeeds, returning the registry itself). -/
theorem special_lookup_is_not_member_error :
    dictFind colour.members "_members" = Option.none ∧
    enumGetattr colour "_members" = LookupResult.special :=
  ⟨rfl, rfl⟩

/-- C4 amended: indexed access is the very same lookup as dotted access
for every string; for a non-reserved name that is a member both yield the
registered constant, and for a non-reserved name that is not a member
both fail with the member-not-found error carrying the type name and the
requested name; reserved (underscore-prefixed) names are instead
delegated to the default attribute machinery. -/
theorem lookup_contract (E : EnumType) (n : String) :
    enumGetitem E n = enumGetattr E n ∧
    (is_special n = false → ∀ c, dictFind E.members n = some c →
      enumGetattr E n = LookupResult.found c) ∧
    (is_special n = false → dictFind E.members n = Option.none →
      enumGetattr E n = LookupResult.memberNotFound E.type_name n) ∧
    (is_special n = true → enumGetattr E n = LookupResult.special) := by
  refine ⟨rfl, ?_, ?_, ?_⟩
  · intro hn c hc
    simp [enumGetattr, hn, hc]
  · intro hn hc
    simp [enumGetattr, hn, hc]
  · intro hn
    simp [enumGetattr, hn]

/-- Witness for the amended C4 theorem: Colour["red"] and Colour.red
agree, and the missing name beige fails with the diagnostic naming the
type and the requested member. -/
theorem lookup_contract_witness :
    enumGetitem colour "red" = enumGetattr colour "red" ∧
    enumGetattr colour "beige" =
      LookupResult.memberNotFound "Colour" "beige" := by
  refine ⟨(lookup_contract colour "red").1, ?_⟩
  exact (lookup_contract colour "beige").2.2.1 rfl rfl

/-- C5 counterexample: deleting the member red of the built Colour type
is not intercepted by any lock: it succeeds (removing the residual
classdict entry) instead of failing with the locked-type error. -/
theorem delete_member_not_locked :
    enumDelattr colour "red" =
      DelAttrResult.ok
        { colour with
          classdict := colour.classdict.filter (fun p => p.1 != "red") } :=
  rfl

/-- C5 amended: assigning to any non-reserved attribute of a built enum
type fails with the locked-type error and changes nothing; reserved
(underscore-prefixed) attributes remain settable; deleting an attribute
is not intercepted — it never raises the locked-type error, and whatever
it does the member registry is unchanged. -/
theorem locked_type_mutation (E : EnumType) (key : String) (v : NsEntry) :
    (is_special key = false →
      enumSetattr E key v = SetAttrResult.lockedError) ∧
    (is_special key = true →
      enumSetattr E key v =
        SetAttrResult.ok { E with classdict := dictSet E.classdict key v }) ∧
    enumDelattr E key ≠ DelAttrResult.lockedError ∧
    (∀ E2, enumDelattr E key = DelAttrResult.ok E2 →
      E2.members = E.members) := by
  refine ⟨?_, ?_, ?_, ?_⟩
  · intro h
    simp [enumSetattr, h]
  · intro h
    simp [enumSetattr, h]
  · unfold enumDelattr
    split
    · exact fun h => nomatch h
    · exact fun h => nomatch h
  · intro E2 h
    unfold enumDelattr at h
    split at h
    · injection h with h2
      rw [← h2]
    · exact absurd h (fun h2 => nomatch h2)

/-- Witness for the amended C5 theorem at the Colour type: reassigning
the member green is rejected with the locked-type error while deleting
never raises it. -/
theorem locked_type_mutation_witness :
    enumSetattr colour "green" (NsEntry.raw (PyVal.int 0)) =
      SetAttrResult.lockedError ∧
    enumDelattr colour "green" ≠ DelAttrResult.lockedError := by
  have h := locked_type_mutation colour "green" (NsEntry.raw (PyVal.int 0))
  exact ⟨h.1 rfl, h.2.2.1⟩

/-- C8: assignment of a one-element tuple to a non-reserved name stores
the tuple's sole element as the member's value, and any value that is not
a one-element tuple is stored unchanged — the unwrapping is a uniform
normalization applied to every assigned value, so a stored value is never
the one-element tuple itself. -/
theorem single_element_tuple_unwrapped (st : NsState) (key : String)
    (v : PyVal) (hk : is_special key = false) :
    dictFind (nsSetItem st key (PyVal.tuple [v])).names key =
      some (NsEntry.nv ⟨key, v, st.counter⟩) ∧
    (∀ w, (∀ u, w ≠ PyVal.tuple [u]) →
      dictFind (nsSetItem st key w).names key =
        some (NsEntry.nv ⟨key, w, st.counter⟩)) := by
  constructor
  · simp only [nsSetItem, hk, Bool.false_eq_true, if_false]
    exact dictFind_dictSet _ _ _
  · intro w hw
    cases w with
    | none =>
      simp only [nsSetItem, hk, Bool.false_eq_true, if_false]
      exact dictFind_dictSet _ _ _
    | int n =>
      simp only [nsSetItem, hk, Bool.false_eq_true, if_false]
      exact dictFind_dictSet _ _ _
    | str s =>
      simp only [nsSetItem, hk, Bool.false_eq_true, if_false]
      exact dictFind_dictSet _ _ _
    | tuple xs =>
      cases xs with
      | nil =>
        simp only [nsSetItem, hk, Bool.false_eq_true, if_false]
        exact dictFind_dictSet _ _ _
      | cons u t =>
        cases t with
        | nil => exact absurd rfl (hw u)
        | cons u2 t2 =>
          simp only [nsSetItem, hk, Bool.false_eq_true, if_false]
          exact dictFind_dictSet _ _ _

/-- Witness for the C8 theorem at the Instruments example of the test
suite: `Keyboard = "<keyboard>",` stores the bare string, not the
tuple. -/
theorem single_element_tuple_unwrapped_witness :
    dictFind (nsSetItem ⟨[], 0⟩ "Keyboard"
        (PyVal.tuple [PyVal.str "<keyboard>"])).names "Keyboard" =
      some (NsEntry.nv ⟨"Keyboard", PyVal.str "<keyboard>", 0⟩) :=
  (single_element_tuple_unwrapped ⟨[], 0⟩ "Keyboard"
    (PyVal.str "<keyboard>") rfl).1

/-- C9: a bare-name lookup during a declaration block first consults the
enclosing scope — a binding in the frame's locals is returned as is
(locals take precedence), then one in the globals — and in either case
the namespace and counter are untouched, declaring no member; only when
neither scope binds the name is a new implicit member declared, with
value None and the next ordinal. -/
theorem bare_lookup_prefers_enclosing_scope (st : NsState) (frame : Frame)
    (key : String) :
    (∀ v, dictFind frame.f_locals key = some v →
      nsGetItem st frame key = (GetResult.external v, st)) ∧
    (dictFind frame.f_locals key = Option.none →
      ∀ v, dictFind frame.f_globals key = some v →
        nsGetItem st frame key = (GetResult.external v, st)) ∧
    (dictFind frame.f_locals key = Option.none →
      dictFind frame.f_globals key = Option.none →
      nsGetItem st frame key =
        (GetResult.member ⟨key, PyVal.none, st.counter⟩,
         ⟨dictSet st.names key (NsEntry.nv ⟨key, PyVal.none, st.counter⟩),
          st.counter + 1⟩)) := by
  refine ⟨?_, ?_, ?_⟩
  · intro v hv
    simp [nsGetItem, hv]
  · intro hl v hv
    simp [nsGetItem, hl, hv]
  · intro hl hg
    simp [nsGetItem, hl, hg]

/-- Witness for the C9 theorem: a name bound in the enclosing locals is
read back without touching the namespace, and an unbound name declares a
fresh implicit member. -/
theorem bare_lookup_prefers_enclosing_scope_witness :
    nsGetItem ⟨[], 0⟩ ⟨[("red", PyVal.int 5)], []⟩ "red" =
      (GetResult.external (PyVal.int 5), ⟨[], 0⟩) ∧
    nsGetItem ⟨[], 0⟩ ⟨[("red", PyVal.int 5)], []⟩ "blue" =
      (GetResult.member ⟨"blue", PyVal.none, 0⟩,
       ⟨[("blue", NsEntry.nv ⟨"blue", PyVal.none, 0⟩)], 1⟩) := by
  have h := bare_lookup_prefers_enclosing_scope ⟨[], 0⟩
    ⟨[("red", PyVal.int 5)], []⟩ "red"
  have h2 := bare_lookup_prefers_enclosing_scope ⟨[], 0⟩
    ⟨[("red", PyVal.int 5)], []⟩ "blue"
  exact ⟨h.1 (PyVal.int 5) rfl, h2.2.2 rfl rfl⟩

/-- C10: a member declared as `name = None` is indistinguishable from a
bare declaration: the namespace records produced by the explicit
assignment and by an unresolved bare mention are identical, and any
constant whose value is None has its implicit flag set, displays without
a value suffix, and orders by its declaration ordinal. -/
theorem explicit_none_is_implicit (st : NsState) (frame : Frame)
    (n : String) (c : EnumConstant)
    (hn : is_special n = false)
    (hl : dictFind frame.f_locals n = Option.none)
    (hg : dictFind frame.f_globals n = Option.none)
    (hc : c.value = PyVal.none) :
    nsSetItem st n PyVal.none = (nsGetItem st frame n).2 ∧
    c.implicit = true ∧
    constStr c = c.enum_name ++ "." ++ c.name ∧
    (∀ d, constLt c d =
      some (decide (c.implicit_value < d.implicit_value))) := by
  refine ⟨?_, ?_, ?_, ?_⟩
  · simp [nsSetItem, nsGetItem, hn, hl, hg]
  · simp [EnumConstant.implicit, hc]
  · simp [constStr, EnumConstant.implicit, hc]
  · intro d
    exact constLt_not_int d (by rw [hc]; rfl)

/-- Witness for the C10 theorem: declaring red as None gives the same
namespace as the bare declaration, and the resulting constant prints as
Colour.red with no value suffix. -/
theorem explicit_none_is_implicit_witness :
    nsSetItem ⟨[], 0⟩ "red" PyVal.none =
      (nsGetItem ⟨[], 0⟩ emptyFrame "red").2 ∧
    constStr ⟨"red", "Colour", PyVal.none, 0, 0⟩ = "Colour.red" := by
  have h := explicit_none_is_implicit ⟨[], 0⟩ emptyFrame "red"
    ⟨"red", "Colour", PyVal.none, 0, 0⟩ rfl rfl rfl rfl
  exact ⟨h.1, h.2.2.1⟩
